import Mathlib

/-!
Verification development for the core module `alpha_shapes/alpha_shapes.py` of the
`alpha_shapes` package: the alpha-complex triangle-selection and optimization engine.

The embedding follows the source module closely:

* a triangle (`simplex`) is a triple of point indices, as in a row of
  `matplotlib.tri.Triangulation.triangles`;
* the squared circumradius of a triangle is either a rational number or the
  infinite sentinel `np.inf` returned by `_circumradius_sq` for degenerate
  triangles (type `CircSq`); exact rational arithmetic stands in for IEEE
  floats, with the source's tolerances (`1e-16`, the `1e-10` epsilon) kept as
  exact rationals;
* the state of an `Alpha_Shaper` instance holds the point count, the triangle
  list, the per-triangle squared circumradii (`self.circumradii_sq`), the rank
  order, and the active mask.  The stored integer permutation `self.argsort`
  is materialized as the list `ranked` of (triangle, squared-circumradius)
  pairs sorted by ascending radius, i.e. exactly the data that
  `_sorted_simplices` (`self.simplices[self.argsort]`) and
  `_sorted_circumradii_sw` (`self.circumradii_sq[self.argsort]`) read from it;
* the external union primitive (`shapely.ops.unary_union`) is out of scope, so
  a Shape is modelled by its generating set: the list of triangles that
  `_shape_from_simplices` passes to the union;
* the external Delaunay triangulation is out of scope as well: construction
  takes the triangle list (and the geometry evaluation for each triangle) as
  input, and the error conversion of `Delaunay.__init__` is modelled over an
  abstract triangulation outcome.
-/

/-- A triangle of the triangulation: a triple of point indices
(one row of `Triangulation.triangles`). -/
abbrev Simplex : Type := ℕ × ℕ × ℕ

/-- A squared circumradius: a rational value, or the infinite sentinel `np.inf`
that `_circumradius_sq` returns for (near-)degenerate triangles. -/
inductive CircSq
  | fin (q : ℚ)
  | inf
deriving DecidableEq

/-- Comparison ranking squared circumradii in ascending order (`np.argsort` on
`self.circumradii_sq`); the sentinel `inf` compares above every finite value. -/
def CircSq.le : CircSq → CircSq → Bool
  | .fin a, .fin b => decide (a ≤ b)
  | .fin _, .inf => true
  | .inf, .fin _ => false
  | .inf, .inf => true

/-- The Heron denominator `16 * s * (s-a) * (s-b) * (s-c)` computed by
`_circumradius_sq` (with `s` the semiperimeter of the side lengths). -/
def heron_denom (a b c : ℚ) : ℚ :=
  let s := (a + b + c) / 2
  16 * s * ((s - a) * (s - b) * (s - c))

/-- Embedding of `_circumradius_sq(lengths)`: the squared circumradius
`(abc)^2 / (16 s (s-a)(s-b)(s-c))` of a triangle with side lengths `a, b, c`,
or the infinite sentinel when the denominator is below the `1e-16` tolerance. -/
def circumradius_sq (a b c : ℚ) : CircSq :=
  let num := (a * b * c) ^ 2
  if heron_denom a b c < 1 / 10 ^ 16 then CircSq.inf
  else CircSq.fin (num / heron_denom a b c)

/-- State of an `Alpha_Shaper` instance after `_initialize`.  `ranked` is the
stored rank order `self.argsort`, materialized as the list of
(triangle, squared circumradius) pairs in ascending-radius order. -/
structure Alpha_Shaper where
  nPoints : ℕ
  simplices : List Simplex
  circumradii_sq : List CircSq
  ranked : List (Simplex × CircSq)
  mask : List Bool
deriving DecidableEq

/-- Embedding of `Alpha_Shaper._initialize`: store the triangle list, compute
one squared circumradius per triangle
(`_calculate_cirumradii_sq_of_internal_triangles`), compute the rank order
(`np.argsort`), and set the default all-`False` mask
(`np.full_like(self.circumradii_sq, False, dtype=bool)`).  The geometry
evaluation `circOf` stands for `_get_circumradius_sq_of_internal_simplex`,
which reads the triangle's float coordinates. -/
def Alpha_Shaper.build (n : ℕ) (ss : List Simplex) (circOf : Simplex → CircSq) :
    Alpha_Shaper :=
  let circ := ss.map circOf
  { nPoints := n
    simplices := ss
    circumradii_sq := circ
    ranked := (ss.zip circ).mergeSort (fun p q => CircSq.le p.2 q.2)
    mask := List.replicate circ.length false }

/-- The vertex set of one triangle (`set(simplex)`). -/
def verts (s : Simplex) : Finset ℕ := {s.1, s.2.1, s.2.2}

/-- The vertex set of a list of triangles (`set(np.ravel(simplices))`). -/
def vertsOfList (l : List Simplex) : Finset ℕ := l.toFinset.biUnion verts

/-- Embedding of `Alpha_Shaper.all_vertices`: the union of the vertices of all
triangles of the triangulation, `set(np.ravel(self.simplices))`. -/
def Alpha_Shaper.all_vertices (sh : Alpha_Shaper) : Finset ℕ :=
  vertsOfList sh.simplices

/-- Embedding of `Alpha_Shaper._sorted_simplices`:
`self.simplices[self.argsort]`. -/
def Alpha_Shaper.sorted_simplices (sh : Alpha_Shaper) : List Simplex :=
  sh.ranked.map Prod.fst

/-- Embedding of `Alpha_Shaper._sorted_circumradii_sw`:
`self.circumradii_sq[self.argsort]`. -/
def Alpha_Shaper.sorted_circumradii (sh : Alpha_Shaper) : List CircSq :=
  sh.ranked.map Prod.snd

/-- Embedding of `Alpha_Shaper._uncovered_vertices(simplices)`:
`self.all_vertices() - set(np.ravel(simplices))`. -/
def Alpha_Shaper.uncovered_vertices (sh : Alpha_Shaper) (l : List Simplex) :
    Finset ℕ :=
  sh.all_vertices \ vertsOfList l

/-- Well-formedness tying the stored rank order to the stored tables: one
radius per triangle, and `ranked` a permutation of the zipped
(triangle, radius) table.  Both hold for every state `_initialize` builds. -/
def Alpha_Shaper.WF (sh : Alpha_Shaper) : Prop :=
  sh.circumradii_sq.length = sh.simplices.length ∧
  sh.ranked.Perm (sh.simplices.zip sh.circumradii_sq)

/-- Entry of `get_mask(alpha)` for one triangle:
`circumradii_sq > 1 / alpha**2` (in IEEE arithmetic `inf` is greater than
every finite threshold). -/
def excludes (r : CircSq) (alpha : ℚ) : Bool :=
  match r with
  | .inf => true
  | .fin q => decide (1 / alpha ^ 2 < q)

/-- Embedding of `Alpha_Shaper.get_mask(alpha)`.  For `alpha == 0` the source
expression `1 / alpha**2` raises `ZeroDivisionError` (Python scalar division),
modelled as `none`. -/
def Alpha_Shaper.get_mask (sh : Alpha_Shaper) (alpha : ℚ) :
    Option (List Bool) :=
  if alpha = 0 then none
  else some (sh.circumradii_sq.map (fun r => excludes r alpha))

/-- Embedding of `Triangulation.set_mask` as used here: store the mask. -/
def Alpha_Shaper.set_mask (sh : Alpha_Shaper) (m : List Bool) : Alpha_Shaper :=
  { sh with mask := m }

/-- Embedding of `Alpha_Shaper.set_mask_at_alpha(alpha)`:
`self.set_mask(self.get_mask(alpha))`. -/
def Alpha_Shaper.set_mask_at_alpha (sh : Alpha_Shaper) (alpha : ℚ) :
    Option Alpha_Shaper :=
  (sh.get_mask alpha).map sh.set_mask

/-- Selection test of `get_shape(alpha)` for one triangle:
`circumradii_sq <= 1 / alpha**2` (in IEEE arithmetic `inf <= x` is false for
every finite threshold). -/
def selects (r : CircSq) (alpha : ℚ) : Bool :=
  match r with
  | .inf => false
  | .fin q => decide (q ≤ 1 / alpha ^ 2)

/-- Embedding of `Alpha_Shaper.get_shape(alpha)`: for `alpha > 0` keep the
triangles with `circumradii_sq <= 1 / alpha**2`, otherwise keep all triangles;
the result is the generating set handed to `_shape_from_simplices`. -/
def Alpha_Shaper.get_shape (sh : Alpha_Shaper) (alpha : ℚ) : List Simplex :=
  if 0 < alpha then
    ((sh.simplices.zip sh.circumradii_sq).filter (fun p => selects p.2 alpha)).map
      Prod.fst
  else sh.simplices

/-- The set of selected triangle indices at a given alpha (the complement of
the exclusion mask), used to state the spec's `selected_triangles(alpha)`. -/
def Alpha_Shaper.selected_indices (sh : Alpha_Shaper) (alpha : ℚ) : List ℕ :=
  (List.range sh.circumradii_sq.length).filter fun i =>
    match sh.circumradii_sq.get? i with
    | some r => selects r alpha
    | none => false

/-- The scanning loop of `_get_minimum_fully_covering_index_of_simplices`:
starting at index `n`, subtract each triangle's vertices from the uncovered
set and return the first index at which it becomes empty; `none` models the
`raise OptimizationFailure` after the loop exhausts the ranked list. -/
def coverLoop : List Simplex → Finset ℕ → ℕ → Option ℕ
  | [], _, _ => none
  | s :: rest, u, n =>
    let u2 := u \ verts s
    if u2 = ∅ then some n else coverLoop rest u2 (n + 1)

/-- Embedding of `Alpha_Shaper._get_minimum_fully_covering_index_of_simplices`:
`n_start = len(self) // 3`; if the first `n_start` ranked triangles already
cover every vertex return `n_start`, otherwise scan forward; `none` models the
`OptimizationFailure` raise. -/
def Alpha_Shaper.get_minimum_fully_covering_index_of_simplices
    (sh : Alpha_Shaper) : Option ℕ :=
  let ss := sh.sorted_simplices
  let nStart := ss.length / 3
  if sh.uncovered_vertices (ss.take nStart) = ∅ then some nStart
  else coverLoop (ss.drop nStart) (sh.uncovered_vertices (ss.take nStart)) nStart

/-- The epsilon `1e-10` that `optimize` subtracts from `1 / sqrt(r_n)`. -/
def epsOpt : ℚ := 1 / 10 ^ 10

/-- Exact decision of `B * sqrt q < A` for rationals (with `q ≥ 0`), used to
evaluate the float comparison `r_i > 1 / alpha_opt**2` without leaving ℚ. -/
def gtSqrt (A B q : ℚ) : Bool :=
  if 0 ≤ B then decide (0 < A) && decide (B ^ 2 * q < A ^ 2)
  else if 0 < A then true
  else if A = 0 then decide (0 < q)
  else decide (A ^ 2 < B ^ 2 * q)

/-- Mask entry set by `optimize` for a triangle with squared circumradius
`ri`, when the squared circumradius at the minimal covering rank is `rn`: the
comparison `ri > 1 / alpha_opt**2` with `alpha_opt = 1/sqrt(rn) - 1e-10`,
decided exactly.

* `rn = inf`: numpy evaluates `1/np.sqrt(inf)` to `0.0`, so
  `alpha_opt = -1e-10` and the threshold is `1/alpha_opt**2 = 1e20`;
* `rn` finite and equal to `1e20`: `alpha_opt = 0.0` (a numpy scalar, so
  `1/alpha_opt**2` is `inf` with a warning, not an error) and nothing is
  excluded;
* `rn = fin q` otherwise (the table only ever holds positive finite values):
  with `t = sqrt q`, `ri > 1/alpha_opt**2  ⟺  ri * alpha_opt**2 > 1  ⟺
  ri*(1 - eps*t)**2 > q  ⟺  ri*(1 + eps^2*q) - q > 2*ri*eps*t`,
  an instance of `gtSqrt`. -/
def optMaskEntry (rn ri : CircSq) : Bool :=
  match rn with
  | .inf =>
    match ri with
    | .inf => true
    | .fin p => decide ((10 ^ 20 : ℚ) < p)
  | .fin q =>
    if q = 10 ^ 20 then false
    else
      match ri with
      | .inf => true
      | .fin p => gtSqrt (p * (1 + epsOpt ^ 2 * q) - q) (2 * p * epsOpt) q

/-- Failure modes of `optimize`: the `OptimizationFailure` raise, or the
out-of-bounds indexing `sorted_circumradii[n_min]` that an empty
triangulation would produce. -/
inductive OptError
  | optimizationFailure
  | indexError
deriving DecidableEq

/-- Return value of `optimize`: the minimal covering index `n_min`, the
squared circumradius at that rank (the data defining
`alpha_opt = 1/sqrt(boundary) - 1e-10`), and the generating set
`simplices[:n_min + 1]` of the returned shape. -/
structure OptResult where
  nMin : ℕ
  boundary : CircSq
  genSet : List Simplex
deriving DecidableEq

/-- Embedding of `Alpha_Shaper.optimize`: find the minimal covering index,
read the squared circumradius at that rank, assemble the shape from the first
`n_min + 1` ranked triangles, and set the mask to
`get_mask(alpha_opt)` (`set_mask_at_alpha(alpha_opt)`); the returned pair is
the result together with the post-state. -/
def Alpha_Shaper.optimize (sh : Alpha_Shaper) :
    Except OptError (OptResult × Alpha_Shaper) :=
  match sh.get_minimum_fully_covering_index_of_simplices with
  | none => .error .optimizationFailure
  | some n =>
    match sh.sorted_circumradii.get? n with
    | none => .error .indexError
    | some rn =>
      .ok ({ nMin := n, boundary := rn
             genSet := sh.sorted_simplices.take (n + 1) },
           sh.set_mask (sh.circumradii_sq.map (optMaskEntry rn)))

/-- The squared circumradius at the minimal covering rank, when `optimize`
succeeds. -/
def Alpha_Shaper.boundaryOf (sh : Alpha_Shaper) : Option CircSq :=
  match sh.optimize with
  | .ok (r, _) => some r.boundary
  | .error _ => none

/-- The generating set of the shape returned by `optimize`, when it
succeeds. -/
def Alpha_Shaper.genSetOf (sh : Alpha_Shaper) : Option (List Simplex) :=
  match sh.optimize with
  | .ok (r, _) => some r.genSet
  | .error _ => none

/-- Entry `i` of the mask set by `optimize` as a side effect, when it
succeeds. -/
def Alpha_Shaper.postMaskAt (sh : Alpha_Shaper) (i : ℕ) : Option Bool :=
  match sh.optimize with
  | .ok (_, sh2) => sh2.mask.get? i
  | .error _ => none

/-- Coverage of the whole triangulation vertex set by the first `m` ranked
triangles (the property the optimizer's scan tests). -/
def Alpha_Shaper.coversUpTo (sh : Alpha_Shaper) (m : ℕ) : Prop :=
  sh.all_vertices ⊆ vertsOfList (sh.sorted_simplices.take m)

/-- Failure of the external triangulation library, as observed by
`Delaunay.__init__`: either the `ValueError` whose message contains
"at least 3" (raised when fewer than 3 points are supplied), or any other
failure, tagged by an opaque code. -/
inductive TriFailure
  | msgAtLeast3
  | other (code : ℕ)
deriving DecidableEq

/-- Result data of a successful external triangulation: the triangle list. -/
structure TriData where
  simplices : List Simplex
deriving DecidableEq

/-- Errors observable from `Delaunay.__init__`: the domain-specific
`NotEnoughPoints`, or the library failure propagated unchanged. -/
inductive InitError
  | notEnoughPoints
  | propagated (f : TriFailure)
deriving DecidableEq

deriving instance DecidableEq for Except

/-- Outcome of `Delaunay.__init__`, together with whether the underlying
triangulation was attempted. -/
structure InitOutcome where
  triangulationAttempted : Bool
  result : Except InitError TriData
deriving DecidableEq

/-- Embedding of `Delaunay.__init__`: the constructor's first action is the
call `super().__init__(x=coords[:,0], y=coords[:,1])` inside the `try` block,
so the triangulation is always attempted; a `ValueError` whose message
contains "at least 3" is converted to `NotEnoughPoints`, any other failure is
re-raised unchanged. -/
def delaunayInit (tri : Except TriFailure TriData) : InitOutcome :=
  { triangulationAttempted := true
    result :=
      match tri with
      | .ok t => .ok t
      | .error f =>
        if f = .msgAtLeast3 then .error .notEnoughPoints
        else .error (.propagated f) }

/-- A one-triangle shaper used as a concrete instance: triangulation of three
points with a single triangle of squared circumradius 1. -/
def exC2 : Alpha_Shaper :=
  { nPoints := 3
    simplices := [(0, 1, 2)]
    circumradii_sq := [CircSq.fin 1]
    ranked := [((0, 1, 2), CircSq.fin 1)]
    mask := [false] }

/-- A one-triangle shaper (squared circumradius 1), concrete instance for the
behaviour of `get_mask` at negative alpha. -/
def exC3 : Alpha_Shaper :=
  { nPoints := 3
    simplices := [(0, 1, 2)]
    circumradii_sq := [CircSq.fin 1]
    ranked := [((0, 1, 2), CircSq.fin 1)]
    mask := [false] }

/-- Shaper on 7 input points whose triangulation has 6 triangles over the
vertices 0..5 only (input point 6 appears in no triangle, as happens for a
duplicate point dropped by the triangulation), ranked by ascending radius;
the two smallest triangles already cover all six triangulation vertices, so
the optimizer's starting prefix `n_start = 6 // 3 = 2` covers everything and
the early-return path fires. -/
def shC1 : Alpha_Shaper :=
  { nPoints := 7
    simplices := [(0, 1, 2), (3, 4, 5), (0, 1, 3), (1, 2, 4), (2, 3, 5), (0, 4, 5)]
    circumradii_sq :=
      [CircSq.fin 1, CircSq.fin 2, CircSq.fin 3, CircSq.fin 4, CircSq.fin 5,
        CircSq.fin 6]
    ranked :=
      [((0, 1, 2), CircSq.fin 1), ((3, 4, 5), CircSq.fin 2),
        ((0, 1, 3), CircSq.fin 3), ((1, 2, 4), CircSq.fin 4),
        ((2, 3, 5), CircSq.fin 5), ((0, 4, 5), CircSq.fin 6)]
    mask := [false, false, false, false, false, false] }

/-- Witness shaper for the optimizer coverage theorem: one triangle. -/
def shW1 : Alpha_Shaper :=
  { nPoints := 3
    simplices := [(0, 1, 2)]
    circumradii_sq := [CircSq.fin 1]
    ranked := [((0, 1, 2), CircSq.fin 1)]
    mask := [false] }

/-- The result `optimize` returns on `shW1`. -/
def resW1 : OptResult :=
  { nMin := 0, boundary := CircSq.fin 1, genSet := [(0, 1, 2)] }

/-- Shaper on 5 input points whose two triangles only touch vertices 0..3:
index 4 models an exact duplicate dropped by the triangulation. -/
def shC4 : Alpha_Shaper :=
  { nPoints := 5
    simplices := [(0, 1, 2), (0, 2, 3)]
    circumradii_sq := [CircSq.fin 1, CircSq.fin 2]
    ranked := [((0, 1, 2), CircSq.fin 1), ((0, 2, 3), CircSq.fin 2)]
    mask := [false, false] }

/-- Shaper whose minimal covering prefix ends at a degenerate triangle: the
second ranked triangle has infinite squared circumradius and is needed to
cover vertex 3. -/
def shC5 : Alpha_Shaper :=
  { nPoints := 4
    simplices := [(0, 1, 2), (1, 2, 3)]
    circumradii_sq := [CircSq.fin 1, CircSq.inf]
    ranked := [((0, 1, 2), CircSq.fin 1), ((1, 2, 3), CircSq.inf)]
    mask := [false, false] }

/-- Witness shaper for the epsilon guarantee: one triangle with finite
squared circumradius 4. -/
def shW5 : Alpha_Shaper :=
  { nPoints := 3
    simplices := [(0, 1, 2)]
    circumradii_sq := [CircSq.fin 4]
    ranked := [((0, 1, 2), CircSq.fin 4)]
    mask := [false] }

/-- The result `optimize` returns on `shW5`. -/
def resW5 : OptResult :=
  { nMin := 0, boundary := CircSq.fin 4, genSet := [(0, 1, 2)] }

/-- Shaper whose only triangle is degenerate: its stored squared circumradius
is the one the geometry kernel computes for the collinear side lengths
`(3, 4, 7)`. -/
def shC6 : Alpha_Shaper :=
  { nPoints := 3
    simplices := [(0, 1, 2)]
    circumradii_sq := [circumradius_sq 3 4 7]
    ranked := [((0, 1, 2), circumradius_sq 3 4 7)]
    mask := [false] }

/-- A one-triangle shaper used as concrete instance of a non-empty
triangulation. -/
def shC10 : Alpha_Shaper :=
  { nPoints := 3
    simplices := [(0, 1, 2)]
    circumradii_sq := [CircSq.fin 1]
    ranked := [((0, 1, 2), CircSq.fin 1)]
    mask := [false] }

/-- Concrete triangle list for instantiating the construction theorems. -/
def exSS : List Simplex := [(0, 1, 2)]

/-- Concrete geometry evaluation for instantiating the construction
theorems. -/
def exCircOf : Simplex → CircSq := fun _ => CircSq.fin 1

theorem vertsOfList_nil : vertsOfList [] = ∅ := by
  simp [vertsOfList]

theorem vertsOfList_cons (s : Simplex) (l : List Simplex) :
    vertsOfList (s :: l) = verts s ∪ vertsOfList l := by
  simp [vertsOfList, List.toFinset_cons, Finset.biUnion_insert]

theorem mem_vertsOfList {v : ℕ} {l : List Simplex} :
    v ∈ vertsOfList l ↔ ∃ s ∈ l, v ∈ verts s := by
  simp [vertsOfList]

theorem vertsOfList_append (l₁ l₂ : List Simplex) :
    vertsOfList (l₁ ++ l₂) = vertsOfList l₁ ∪ vertsOfList l₂ := by
  ext v
  simp only [mem_vertsOfList, Finset.mem_union, List.mem_append]
  constructor
  · rintro ⟨s, hs | hs, hv⟩
    · exact Or.inl ⟨s, hs, hv⟩
    · exact Or.inr ⟨s, hs, hv⟩
  · rintro (⟨s, hs, hv⟩ | ⟨s, hs, hv⟩)
    · exact ⟨s, Or.inl hs, hv⟩
    · exact ⟨s, Or.inr hs, hv⟩

theorem vertsOfList_perm {l l' : List Simplex} (h : l.Perm l') :
    vertsOfList l = vertsOfList l' := by
  ext v
  simp only [mem_vertsOfList]
  constructor <;> rintro ⟨s, hs, hv⟩
  · exact ⟨s, h.mem_iff.mp hs, hv⟩
  · exact ⟨s, h.mem_iff.mpr hs, hv⟩

theorem vertsOfList_take_mono {l : List Simplex} {m n : ℕ} (h : m ≤ n) :
    vertsOfList (l.take m) ⊆ vertsOfList (l.take n) := by
  intro v hv
  rcases mem_vertsOfList.mp hv with ⟨s, hs, hvs⟩
  refine mem_vertsOfList.mpr ⟨s, ?_, hvs⟩
  have heq : l.take m = (l.take n).take m := by
    rw [List.take_take, Nat.min_eq_left h]
  rw [heq] at hs
  exact List.mem_of_mem_take hs

theorem sdiff_union_eq (u A B : Finset ℕ) : u \ (A ∪ B) = (u \ A) \ B := by
  ext v
  simp only [Finset.mem_sdiff, Finset.mem_union]
  tauto

theorem coverLoop_isSome {l : List Simplex} :
    ∀ {u : Finset ℕ} {n : ℕ}, u ≠ ∅ → u ⊆ vertsOfList l →
      ∃ k, coverLoop l u n = some (n + k) ∧ k < l.length := by
  induction l with
  | nil =>
    intro u n hne hsub
    rw [vertsOfList_nil, Finset.subset_empty] at hsub
    exact absurd hsub hne
  | cons s rest ih =>
    intro u n hne hsub
    by_cases hc : u \ verts s = ∅
    · exact ⟨0, by simp [coverLoop, hc], by simp⟩
    · have hsub2 : u \ verts s ⊆ vertsOfList rest := by
        intro v hv
        rcases Finset.mem_sdiff.mp hv with ⟨hvu, hvs⟩
        have hm := hsub hvu
        rw [vertsOfList_cons, Finset.mem_union] at hm
        tauto
      rcases @ih (u \ verts s) (n + 1) hc hsub2 with ⟨k, hk, hlt⟩
      refine ⟨k + 1, ?_, by simpa using Nat.succ_lt_succ hlt⟩
      rw [coverLoop]
      simp only [if_neg hc]
      rw [hk]
      congr 1
      omega

theorem coverLoop_sound {l : List Simplex} :
    ∀ {u : Finset ℕ} {n m : ℕ}, coverLoop l u n = some m → u ≠ ∅ →
      ∃ k, m = n + k ∧ k < l.length ∧
        u \ vertsOfList (l.take (k + 1)) = ∅ ∧
        ∀ j ≤ k, u \ vertsOfList (l.take j) ≠ ∅ := by
  induction l with
  | nil => intro u n m h _; simp [coverLoop] at h
  | cons s rest ih =>
    intro u n m h hne
    by_cases hc : u \ verts s = ∅
    · rw [coverLoop] at h
      simp only [if_pos hc, Option.some.injEq] at h
      refine ⟨0, h.symm, by simp, ?_, ?_⟩
      · rw [List.take_succ_cons, List.take_zero, vertsOfList_cons, vertsOfList_nil,
          Finset.union_empty]
        exact hc
      · intro j hj
        interval_cases j
        rw [List.take_zero, vertsOfList_nil, Finset.sdiff_empty]
        exact hne
    · rw [coverLoop] at h
      simp only [if_neg hc] at h
      rcases ih h hc with ⟨k, hm, hk, hcov, hmin⟩
      refine ⟨k + 1, by omega, by simp [hk], ?_, ?_⟩
      · rw [List.take_succ_cons, vertsOfList_cons, sdiff_union_eq]
        exact hcov
      · intro j hj
        match j with
        | 0 =>
          rw [List.take_zero, vertsOfList_nil, Finset.sdiff_empty]
          exact hne
        | j + 1 =>
          rw [List.take_succ_cons, vertsOfList_cons, sdiff_union_eq]
          exact hmin j (by omega)

theorem coversUpTo_iff {sh : Alpha_Shaper} {m : ℕ} :
    sh.coversUpTo m ↔ sh.uncovered_vertices (sh.sorted_simplices.take m) = ∅ := by
  rw [Alpha_Shaper.coversUpTo, Alpha_Shaper.uncovered_vertices,
    Finset.sdiff_eq_empty_iff_subset]

theorem uncovered_take_add (sh : Alpha_Shaper) (nS j : ℕ) :
    sh.uncovered_vertices (sh.sorted_simplices.take (nS + j)) =
      sh.uncovered_vertices (sh.sorted_simplices.take nS) \
        vertsOfList ((sh.sorted_simplices.drop nS).take j) := by
  rw [Alpha_Shaper.uncovered_vertices, Alpha_Shaper.uncovered_vertices,
    List.take_add, vertsOfList_append, sdiff_union_eq]

theorem min_cover_spec {sh : Alpha_Shaper} {n : ℕ}
    (h : sh.get_minimum_fully_covering_index_of_simplices = some n) :
    sh.coversUpTo (n + 1) ∧
    (¬ sh.coversUpTo (sh.sorted_simplices.length / 3) →
      ∀ m ≤ n, ¬ sh.coversUpTo m) := by
  rw [Alpha_Shaper.get_minimum_fully_covering_index_of_simplices] at h
  by_cases hpre :
      sh.uncovered_vertices
        (sh.sorted_simplices.take (sh.sorted_simplices.length / 3)) = ∅
  · rw [if_pos hpre, Option.some.injEq] at h
    subst h
    constructor
    · have h1 : sh.all_vertices ⊆
          vertsOfList (sh.sorted_simplices.take (sh.sorted_simplices.length / 3)) :=
        Finset.sdiff_eq_empty_iff_subset.mp hpre
      exact fun v hv =>
        vertsOfList_take_mono (Nat.le_succ _) (h1 hv)
    · intro hnc
      exact absurd (coversUpTo_iff.mpr hpre) hnc
  · rw [if_neg hpre] at h
    rcases coverLoop_sound h hpre with ⟨k, hm, _, hcov, hmin⟩
    constructor
    · rw [coversUpTo_iff, hm, show sh.sorted_simplices.length / 3 + k + 1 =
        sh.sorted_simplices.length / 3 + (k + 1) by omega, uncovered_take_add]
      exact hcov
    · intro _ m hm'
      rw [coversUpTo_iff]
      by_cases hcase : m ≤ sh.sorted_simplices.length / 3
      · rcases Finset.nonempty_iff_ne_empty.mpr hpre with ⟨x, hx⟩
        rcases Finset.mem_sdiff.mp hx with ⟨hxa, hxn⟩
        have hxm : x ∈ sh.uncovered_vertices (sh.sorted_simplices.take m) :=
          Finset.mem_sdiff.mpr
            ⟨hxa, fun hc => hxn (vertsOfList_take_mono hcase hc)⟩
        intro hemp
        rw [hemp] at hxm
        exact absurd hxm (Finset.not_mem_empty x)
      · push_neg at hcase
        obtain ⟨j, rfl, hj⟩ :
            ∃ j, m = sh.sorted_simplices.length / 3 + j ∧ j ≤ k := by
          exact ⟨m - sh.sorted_simplices.length / 3, by omega, by omega⟩
        rw [uncovered_take_add]
        exact hmin j hj

theorem build_WF (n : ℕ) (ss : List Simplex) (circOf : Simplex → CircSq) :
    (Alpha_Shaper.build n ss circOf).WF := by
  constructor
  · simp [Alpha_Shaper.build]
  · simpa [Alpha_Shaper.build] using
      List.mergeSort_perm (ss.zip (ss.map circOf)) (fun p q => CircSq.le p.2 q.2)

theorem sorted_simplices_perm {sh : Alpha_Shaper} (h : sh.WF) :
    sh.sorted_simplices.Perm sh.simplices := by
  have hp := h.2.map Prod.fst
  rwa [List.map_fst_zip _ _ (le_of_eq h.1.symm)] at hp

theorem all_vertices_eq_sorted {sh : Alpha_Shaper} (h : sh.WF) :
    vertsOfList sh.sorted_simplices = sh.all_vertices :=
  vertsOfList_perm (sorted_simplices_perm h)

theorem sorted_simplices_length {sh : Alpha_Shaper} (h : sh.WF) :
    sh.sorted_simplices.length = sh.simplices.length :=
  (sorted_simplices_perm h).length_eq

theorem sorted_circumradii_length (sh : Alpha_Shaper) :
    sh.sorted_circumradii.length = sh.sorted_simplices.length := by
  simp [Alpha_Shaper.sorted_circumradii, Alpha_Shaper.sorted_simplices]

theorem min_cover_isSome {sh : Alpha_Shaper} (hwf : sh.WF)
    (hne : sh.simplices ≠ []) :
    ∃ n, sh.get_minimum_fully_covering_index_of_simplices = some n ∧
      n < sh.sorted_simplices.length := by
  rw [Alpha_Shaper.get_minimum_fully_covering_index_of_simplices]
  have hpos : 0 < sh.sorted_simplices.length := by
    rw [sorted_simplices_length hwf]
    exact List.length_pos.mpr hne
  by_cases hpre :
      sh.uncovered_vertices
        (sh.sorted_simplices.take (sh.sorted_simplices.length / 3)) = ∅
  · exact ⟨_, by rw [if_pos hpre], Nat.div_lt_self hpos (by norm_num)⟩
  · rw [if_neg hpre]
    have hsub :
        sh.uncovered_vertices
            (sh.sorted_simplices.take (sh.sorted_simplices.length / 3)) ⊆
          vertsOfList (sh.sorted_simplices.drop (sh.sorted_simplices.length / 3)) := by
      intro v hv
      rcases Finset.mem_sdiff.mp hv with ⟨hva, hvn⟩
      have hall : v ∈ vertsOfList sh.sorted_simplices := by
        rw [all_vertices_eq_sorted hwf]
        exact hva
      rw [← List.take_append_drop (sh.sorted_simplices.length / 3)
        sh.sorted_simplices, vertsOfList_append, Finset.mem_union] at hall
      tauto
    rcases coverLoop_isSome hpre hsub with ⟨k, hk, hklt⟩
    refine ⟨_, hk, ?_⟩
    have hdl : (sh.sorted_simplices.drop (sh.sorted_simplices.length / 3)).length =
        sh.sorted_simplices.length - sh.sorted_simplices.length / 3 := by
      simp
    omega

theorem optimize_ok {sh : Alpha_Shaper} (hwf : sh.WF) (hne : sh.simplices ≠ []) :
    ∃ res sh2, sh.optimize = .ok (res, sh2) := by
  rcases min_cover_isSome hwf hne with ⟨n, hmin, hlt⟩
  have hget : ∃ rn, sh.sorted_circumradii.get? n = some rn := by
    have hn : n < sh.sorted_circumradii.length := by
      rw [sorted_circumradii_length]
      exact hlt
    cases hg : sh.sorted_circumradii.get? n with
    | none =>
      rw [List.get?_eq_none] at hg
      omega
    | some rn => exact ⟨rn, rfl⟩
  rcases hget with ⟨rn, hrn⟩
  exact ⟨{ nMin := n, boundary := rn, genSet := sh.sorted_simplices.take (n + 1) },
    sh.set_mask (sh.circumradii_sq.map (optMaskEntry rn)),
    by simp only [Alpha_Shaper.optimize, hmin, hrn]⟩

theorem optimize_ok_elim {sh : Alpha_Shaper} {res : OptResult}
    {sh2 : Alpha_Shaper} (h : sh.optimize = .ok (res, sh2)) :
    sh.get_minimum_fully_covering_index_of_simplices = some res.nMin ∧
    sh.sorted_circumradii.get? res.nMin = some res.boundary ∧
    res.genSet = sh.sorted_simplices.take (res.nMin + 1) ∧
    sh2 = sh.set_mask (sh.circumradii_sq.map (optMaskEntry res.boundary)) := by
  cases hmin : sh.get_minimum_fully_covering_index_of_simplices with
  | none =>
    simp only [Alpha_Shaper.optimize, hmin] at h
    exact Except.noConfusion h
  | some n =>
    cases hget : sh.sorted_circumradii.get? n with
    | none =>
      simp only [Alpha_Shaper.optimize, hmin, hget] at h
      exact Except.noConfusion h
    | some rn =>
      simp only [Alpha_Shaper.optimize, hmin, hget, Except.ok.injEq,
        Prod.mk.injEq] at h
      rcases h with ⟨hres, hsh2⟩
      subst hres
      subst hsh2
      exact ⟨rfl, hget, rfl, rfl⟩

theorem optMaskEntry_self_false {q : ℚ} (hq : 0 < q) (hlt : q < 10 ^ 20) :
    optMaskEntry (CircSq.fin q) (CircSq.fin q) = false := by
  have hne : q ≠ 10 ^ 20 := ne_of_lt hlt
  simp only [optMaskEntry, if_neg hne]
  have hB : 0 ≤ 2 * q * epsOpt := by
    have he : (0:ℚ) < epsOpt := by norm_num [epsOpt]
    positivity
  rw [gtSqrt, if_pos hB]
  have hnlt : ¬ ((2 * q * epsOpt) ^ 2 * q <
      (q * (1 + epsOpt ^ 2 * q) - q) ^ 2) := by
    rw [not_lt, show q * (1 + epsOpt ^ 2 * q) - q = epsOpt ^ 2 * q ^ 2 by ring,
      epsOpt]
    have h3 : 0 < q ^ 3 := pow_pos hq 3
    nlinarith [mul_lt_mul_of_pos_right hlt h3]
  simp [hnlt]

theorem alpha_opt_included {q : ℚ} (hq : 0 < q) (hlt : q < 10 ^ 20) {a : ℝ}
    (ha : a = 1 / Real.sqrt q - 1 / 10 ^ 10) :
    0 < a ∧ (q : ℝ) ≤ 1 / a ^ 2 := by
  have hq' : (0:ℝ) < (q:ℝ) := by exact_mod_cast hq
  have ht : 0 < Real.sqrt q := Real.sqrt_pos.mpr hq'
  have ht2 : Real.sqrt q < 10 ^ 10 := by
    have h1 : Real.sqrt (q:ℝ) < Real.sqrt ((10:ℝ) ^ 20) := by
      apply Real.sqrt_lt_sqrt hq'.le
      exact_mod_cast hlt
    rwa [show ((10:ℝ) ^ 20) = ((10:ℝ) ^ 10) ^ 2 by norm_num,
      Real.sqrt_sq (by positivity)] at h1
  have hapos : 0 < a := by
    rw [ha]
    have h2 : (1:ℝ) / 10 ^ 10 < 1 / Real.sqrt q :=
      one_div_lt_one_div_of_lt ht ht2
    linarith
  refine ⟨hapos, ?_⟩
  have haless : a < 1 / Real.sqrt q := by
    rw [ha]
    have h3 : (0:ℝ) < 1 / 10 ^ 10 := by norm_num
    linarith
  have hsq : a ^ 2 < (1 / Real.sqrt q) ^ 2 :=
    pow_lt_pow_left₀ haless hapos.le (by norm_num)
  rw [div_pow, one_pow, Real.sq_sqrt hq'.le] at hsq
  have h4 : (q:ℝ) = 1 / (1 / (q:ℝ)) := by field_simp
  rw [h4]
  exact le_of_lt (one_div_lt_one_div_of_lt (by positivity) hsq)

/-- C9: immediately after construction the mask defaults to all-included:
it is the all-`False` vector `np.full_like(circumradii_sq, False)`, so no
triangle is excluded before any call to `optimize` or `set_mask_at_alpha`. -/
theorem C9_default_mask_all_false (n : ℕ) (ss : List Simplex)
    (circOf : Simplex → CircSq) :
    (Alpha_Shaper.build n ss circOf).mask =
      List.replicate (Alpha_Shaper.build n ss circOf).circumradii_sq.length
        false ∧
    ∀ b ∈ (Alpha_Shaper.build n ss circOf).mask, b = false := by
  refine ⟨rfl, ?_⟩
  intro b hb
  exact List.eq_of_mem_replicate hb

/-- C8: the circumradius table and the rank order have one entry per triangle,
are computed at construction, and are left unchanged (together with the
triangle list) by `set_mask_at_alpha` and by `optimize` (and `get_mask` /
`get_shape` are pure functions of the state). -/
theorem C8_tables_frame (n : ℕ) (ss : List Simplex) (circOf : Simplex → CircSq)
    (sh : Alpha_Shaper) (alpha : ℚ) :
    (Alpha_Shaper.build n ss circOf).circumradii_sq.length = ss.length ∧
    (Alpha_Shaper.build n ss circOf).ranked.length = ss.length ∧
    (∀ sh2, sh.set_mask_at_alpha alpha = some sh2 →
      sh2.circumradii_sq = sh.circumradii_sq ∧ sh2.ranked = sh.ranked ∧
      sh2.simplices = sh.simplices) ∧
    (∀ res sh2, sh.optimize = .ok (res, sh2) →
      sh2.circumradii_sq = sh.circumradii_sq ∧ sh2.ranked = sh.ranked ∧
      sh2.simplices = sh.simplices) := by
  refine ⟨by simp [Alpha_Shaper.build], ?_, ?_, ?_⟩
  · simp [Alpha_Shaper.build]
  · intro sh2 h
    rw [Alpha_Shaper.set_mask_at_alpha] at h
    cases hg : sh.get_mask alpha with
    | none =>
      rw [hg] at h
      exact Option.noConfusion h
    | some m =>
      rw [hg, Option.map_some'] at h
      injection h with h2
      subst h2
      exact ⟨rfl, rfl, rfl⟩
  · intro res sh2 h
    rcases optimize_ok_elim h with ⟨-, -, -, h4⟩
    subst h4
    exact ⟨rfl, rfl, rfl⟩

/-- C2 (amended): triangle selection is antitone in alpha, not monotone: for
`0 < alpha1 < alpha2` the set of triangles selected at `alpha2` is a subset of
the set selected at `alpha1` — increasing alpha never adds a triangle, and it
is decreasing alpha that never removes one. -/
theorem C2_selection_antitone (sh : Alpha_Shaper) (a1 a2 : ℚ) (h1 : 0 < a1)
    (h12 : a1 < a2) :
    sh.selected_indices a2 ⊆ sh.selected_indices a1 := by
  intro i hi
  rw [Alpha_Shaper.selected_indices, List.mem_filter] at hi ⊢
  refine ⟨hi.1, ?_⟩
  have hsel := hi.2
  cases hg : sh.circumradii_sq.get? i with
  | none =>
    rw [hg] at hsel
    simp at hsel
  | some r =>
    rw [hg] at hsel
    have hsel2 : selects r a2 = true := hsel
    show selects r a1 = true
    cases r with
    | inf => simp [selects] at hsel2
    | fin q =>
      simp only [selects, decide_eq_true_eq] at hsel2 ⊢
      have hq : (1:ℚ) / a2 ^ 2 ≤ 1 / a1 ^ 2 := by
        apply one_div_le_one_div_of_le
        · positivity
        · exact pow_le_pow_left₀ h1.le h12.le 2
      linarith

/-- C2, the claim as stated is false: with a single triangle of squared
circumradius 1, alpha 1 selects it but the larger alpha 2 does not, so
`selected_triangles(1) ⊆ selected_triangles(2)` fails for `0 < 1 < 2`. -/
theorem C2_counterexample :
    0 < (1:ℚ) ∧ (1:ℚ) < 2 ∧
    ¬ Alpha_Shaper.selected_indices exC2 1 ⊆
        Alpha_Shaper.selected_indices exC2 2 := by
  refine ⟨one_pos, by norm_num, ?_⟩
  intro hsub
  have h0 : 0 ∈ Alpha_Shaper.selected_indices exC2 1 := by
    norm_num [Alpha_Shaper.selected_indices, exC2, selects, List.mem_filter]
  have h2 := hsub h0
  norm_num [Alpha_Shaper.selected_indices, exC2, selects, List.mem_filter] at h2

/-- Witness: the amended monotonicity theorem instantiated at the
one-triangle shaper with `alpha1 = 1 < alpha2 = 2`. -/
theorem C2_witness :
    0 < (1:ℚ) ∧ (1:ℚ) < 2 ∧
    Alpha_Shaper.selected_indices exC2 2 ⊆ Alpha_Shaper.selected_indices exC2 1 :=
  ⟨one_pos, by norm_num, C2_selection_antitone exC2 1 2 one_pos (by norm_num)⟩

/-- C3 (amended): for alpha zero or negative, `get_shape` builds the shape
from the full triangle set; `get_mask`, however, does not treat nonpositive
alpha as "no exclusion": for negative alpha it behaves as for `|alpha|`
(because only `alpha**2` enters the threshold), and at `alpha = 0` it raises
`ZeroDivisionError`. -/
theorem C3_nonpositive_alpha (sh : Alpha_Shaper) (alpha : ℚ) (h : alpha ≤ 0) :
    sh.get_shape alpha = sh.simplices ∧
    (alpha < 0 → sh.get_mask alpha = sh.get_mask (-alpha)) ∧
    sh.get_mask 0 = none := by
  refine ⟨?_, ?_, by simp [Alpha_Shaper.get_mask]⟩
  · rw [Alpha_Shaper.get_shape, if_neg (not_lt.mpr h)]
  · intro hneg
    have hz : alpha ≠ 0 := ne_of_lt hneg
    have hz2 : -alpha ≠ 0 := neg_ne_zero.mpr hz
    rw [Alpha_Shaper.get_mask, Alpha_Shaper.get_mask, if_neg hz, if_neg hz2]
    have hfun : (fun r => excludes r alpha) = fun r => excludes r (-alpha) := by
      funext r
      cases r with
      | inf => rfl
      | fin q => simp [excludes, neg_sq]
    rw [hfun]

/-- C3, the claim as stated is false: at the negative alpha `-2`, `get_mask`
marks the triangle with squared circumradius 1 as excluded (the mask is
`[True]`), because `1 / (-2)**2 = 1/4 < 1`; nonpositive alpha is special-cased
only in `get_shape`, not in `get_mask`. -/
theorem C3_counterexample :
    (-2 : ℚ) < 0 ∧ Alpha_Shaper.get_mask exC3 (-2) = some [true] := by
  refine ⟨by norm_num, ?_⟩
  rw [Alpha_Shaper.get_mask, if_neg (by norm_num)]
  norm_num [exC3, excludes]

/-- Witness: the amended nonpositive-alpha theorem instantiated at the
one-triangle shaper with `alpha = -2`. -/
theorem C3_witness :
    (-2 : ℚ) ≤ 0 ∧
    (Alpha_Shaper.get_shape exC3 (-2) = exC3.simplices ∧
      ((-2:ℚ) < 0 →
        Alpha_Shaper.get_mask exC3 (-2) = Alpha_Shaper.get_mask exC3 (-(-2))) ∧
      Alpha_Shaper.get_mask exC3 0 = none) :=
  ⟨by norm_num, C3_nonpositive_alpha exC3 (-2) (by norm_num)⟩

/-- C6: whenever the Heron denominator `16*s*(s-a)*(s-b)*(s-c)` is below the
`1e-16` tolerance (three collinear points give denominator 0), the squared
circumradius computation returns the infinite-radius sentinel instead of
dividing, and a triangle carrying that sentinel is excluded at every finite
`alpha > 0`: its `get_mask` flag is `True`, its `get_shape` selection test is
`False`, and its index never appears among the selected indices. -/
theorem C6_degenerate_triangle (a b c : ℚ)
    (h : heron_denom a b c < 1 / 10 ^ 16) :
    circumradius_sq a b c = CircSq.inf ∧
    (∀ alpha : ℚ, 0 < alpha →
      excludes CircSq.inf alpha = true ∧ selects CircSq.inf alpha = false) ∧
    (∀ (sh : Alpha_Shaper) (i : ℕ) (alpha : ℚ), 0 < alpha →
      sh.circumradii_sq.get? i = some (circumradius_sq a b c) →
      i ∉ sh.selected_indices alpha) := by
  have hinf : circumradius_sq a b c = CircSq.inf := by
    simp only [circumradius_sq]
    rw [if_pos h]
  refine ⟨hinf, fun alpha _ => ⟨rfl, rfl⟩, ?_⟩
  intro sh i alpha _ hget hmem
  rw [Alpha_Shaper.selected_indices, List.mem_filter] at hmem
  have hsel := hmem.2
  rw [hget, hinf] at hsel
  simp [selects] at hsel

/-- Witness: the degenerate side lengths `(3, 4, 7)` (collinear points) have
Heron denominator 0, the sentinel is produced, and the triangle carrying it is
not selected at `alpha = 1` in a shaper holding that value. -/
theorem C6_witness :
    circumradius_sq 3 4 7 = CircSq.inf ∧
    (excludes CircSq.inf 1 = true ∧ selects CircSq.inf 1 = false) ∧
    0 ∉ shC6.selected_indices 1 := by
  have h := C6_degenerate_triangle 3 4 7 (by norm_num [heron_denom])
  exact ⟨h.1, h.2.1 1 one_pos, h.2.2 shC6 0 1 one_pos rfl⟩

/-- C7 (amended): construction fails with `NotEnoughPoints` exactly when the
underlying triangulation library itself fails with its fewer-than-3-points
`ValueError` (equivalently, by the library contract, when fewer than 3 points
are supplied) — but the error is produced by converting the library error
after the triangulation has been attempted, not before; every other
triangulation failure is propagated unchanged, and successes pass through. -/
theorem C7_not_enough_points (pts : ℕ) (tri : Except TriFailure TriData)
    (hcontract : (tri = .error .msgAtLeast3) ↔ pts < 3) :
    ((delaunayInit tri).result = .error .notEnoughPoints ↔ pts < 3) ∧
    (delaunayInit tri).triangulationAttempted = true ∧
    (∀ f, tri = .error f → f ≠ .msgAtLeast3 →
      (delaunayInit tri).result = .error (.propagated f)) ∧
    (∀ d, tri = .ok d → (delaunayInit tri).result = .ok d) := by
  refine ⟨?_, rfl, ?_, ?_⟩
  · rw [← hcontract]
    cases tri with
    | ok d => simp [delaunayInit]
    | error f =>
      by_cases hf : f = .msgAtLeast3
      · subst hf
        simp [delaunayInit]
      · simp [delaunayInit, hf]
  · intro f hf hne
    subst hf
    simp [delaunayInit, hne]
  · intro d hd
    subst hd
    simp [delaunayInit]

/-- C7, the claim as stated is false in its timing part: on a 2-point input
the library raises its "at least 3" `ValueError` and `Delaunay.__init__`
converts it to `NotEnoughPoints`, but only after the triangulation has been
attempted (the conversion happens in the `except` clause around
`super().__init__`), not before any triangulation attempt. -/
theorem C7_counterexample :
    (delaunayInit (.error TriFailure.msgAtLeast3)).result =
      .error InitError.notEnoughPoints ∧
    (delaunayInit (.error TriFailure.msgAtLeast3)).triangulationAttempted =
      true :=
  ⟨rfl, rfl⟩

/-- Witness: the amended constructor theorem instantiated at a 2-point input
whose triangulation fails with the "at least 3" message. -/
theorem C7_witness :
    ((delaunayInit (.error TriFailure.msgAtLeast3)).result =
        .error InitError.notEnoughPoints ↔ 2 < 3) ∧
    (delaunayInit (.error TriFailure.msgAtLeast3)).triangulationAttempted =
      true :=
  ⟨(C7_not_enough_points 2 (.error TriFailure.msgAtLeast3) (by simp)).1,
    (C7_not_enough_points 2 (.error TriFailure.msgAtLeast3) (by simp)).2.1⟩

/-- C10: for every well-formed shaper whose triangulation has at least one
triangle, `optimize` succeeds and in particular never raises
`OptimizationFailure`: the uncovered set starts from `all_vertices()`, the
union of the vertices of all triangles, so the scan empties it and the raise
branch is unreachable. -/
theorem C10_optimize_never_fails {sh : Alpha_Shaper} (hwf : sh.WF)
    (hne : sh.simplices ≠ []) :
    (∃ res sh2, sh.optimize = .ok (res, sh2)) ∧
    sh.optimize ≠ .error OptError.optimizationFailure := by
  rcases optimize_ok hwf hne with ⟨res, sh2, h⟩
  refine ⟨⟨res, sh2, h⟩, ?_⟩
  rw [h]
  exact fun hc => Except.noConfusion hc

/-- Witness: the unreachability theorem instantiated at a one-triangle
shaper. -/
theorem C10_witness :
    shC10.WF ∧ shC10.simplices ≠ [] ∧
    ((∃ res sh2, shC10.optimize = .ok (res, sh2)) ∧
      shC10.optimize ≠ .error OptError.optimizationFailure) :=
  ⟨⟨by decide, by decide⟩, by decide,
    C10_optimize_never_fails ⟨by decide, by decide⟩ (by decide)⟩

/-- C4 (amended): an input point index that is absent from every triangle of
the triangulation does not make `optimize` raise `OptimizationFailure`: the
uncovered set is drawn from `all_vertices()` (triangle vertices only), so
`optimize` succeeds and the absent index simply never appears in the
generating set of the returned shape. -/
theorem C4_missing_vertex_no_failure {sh : Alpha_Shaper} (hwf : sh.WF)
    (hne : sh.simplices ≠ []) {i : ℕ} (hi : i ∉ sh.all_vertices) :
    (∃ res sh2, sh.optimize = .ok (res, sh2)) ∧
    sh.optimize ≠ .error OptError.optimizationFailure ∧
    ∀ res sh2, sh.optimize = .ok (res, sh2) → i ∉ vertsOfList res.genSet := by
  rcases optimize_ok hwf hne with ⟨res, sh2, h⟩
  refine ⟨⟨res, sh2, h⟩, by rw [h]; exact fun hc => Except.noConfusion hc, ?_⟩
  intro res2 sh22 h2
  rcases optimize_ok_elim h2 with ⟨-, -, hgen, -⟩
  rw [hgen]
  intro hmem
  rcases mem_vertsOfList.mp hmem with ⟨t, ht, hvt⟩
  have ht2 : t ∈ sh.sorted_simplices := List.mem_of_mem_take ht
  have ht3 : t ∈ sh.simplices := (sorted_simplices_perm hwf).mem_iff.mp ht2
  exact hi (mem_vertsOfList.mpr ⟨t, ht3, hvt⟩)

/-- Witness: the amended theorem instantiated at the shaper whose input index
4 (a dropped duplicate) appears in no triangle. -/
theorem C4_witness :
    shC4.WF ∧ shC4.simplices ≠ [] ∧ 4 ∉ shC4.all_vertices ∧
    ((∃ res sh2, shC4.optimize = .ok (res, sh2)) ∧
      shC4.optimize ≠ .error OptError.optimizationFailure ∧
      ∀ res sh2, shC4.optimize = .ok (res, sh2) → 4 ∉ vertsOfList res.genSet) :=
  ⟨⟨by decide, by decide⟩, by decide, by decide,
    C4_missing_vertex_no_failure ⟨by decide, by decide⟩ (by decide) (by decide)⟩

/-- C1 (amended): after a successful `optimize()`, every vertex of the
triangulation (every index that appears in at least one triangle) appears in
a triangle of the returned shape's generating set, and — whenever the
heuristic starting prefix of `len(self) // 3` ranked triangles does not
already cover all triangulation vertices — the generating set is a minimal
covering prefix: every prefix of at most `n_min` ranked triangles fails to
cover the triangulation vertex set. -/
theorem C1_optimize_covering {sh : Alpha_Shaper} {res : OptResult}
    {sh2 : Alpha_Shaper} (h : sh.optimize = .ok (res, sh2)) :
    (∀ v ∈ sh.all_vertices, ∃ t ∈ res.genSet, v ∈ verts t) ∧
    (¬ sh.coversUpTo (sh.sorted_simplices.length / 3) →
      ∀ m ≤ res.nMin, ¬ sh.coversUpTo m) := by
  rcases optimize_ok_elim h with ⟨hmin, -, hgen, -⟩
  rcases min_cover_spec hmin with ⟨hcov, hminimal⟩
  constructor
  · intro v hv
    have hsub : sh.all_vertices ⊆
        vertsOfList (sh.sorted_simplices.take (res.nMin + 1)) := hcov
    have hv2 := hsub hv
    rw [← hgen] at hv2
    exact mem_vertsOfList.mp hv2
  · exact hminimal

/-- C1, the claim as stated is false on `shC1`: `optimize` succeeds with the
generating set of the first 3 ranked triangles, yet (i) input point index 6
(dropped by the triangulation) appears in no triangle of the generating set,
and (ii) the strictly smaller prefix of the first 2 ranked triangles already
covers the full triangulation vertex set, so the returned prefix is not
minimal. -/
theorem C1_counterexample :
    shC1.genSetOf = some [(0, 1, 2), (3, 4, 5), (0, 1, 3)] ∧
    6 < shC1.nPoints ∧
    6 ∉ vertsOfList [((0, 1, 2) : Simplex), (3, 4, 5), (0, 1, 3)] ∧
    shC1.all_vertices ⊆ vertsOfList (shC1.sorted_simplices.take 2) ∧
    2 < 2 + 1 := by
  have hmask : shC1.circumradii_sq.map (optMaskEntry (CircSq.fin 3)) =
      [false, false, false, true, true, true] := by
    norm_num [shC1, optMaskEntry, gtSqrt, epsOpt]
  have hopt : shC1.optimize =
      .ok ({ nMin := 2, boundary := CircSq.fin 3
             genSet := [(0, 1, 2), (3, 4, 5), (0, 1, 3)] },
           shC1.set_mask [false, false, false, true, true, true]) := by
    simp only [Alpha_Shaper.optimize,
      show shC1.get_minimum_fully_covering_index_of_simplices = some 2 from by
        decide,
      show shC1.sorted_circumradii.get? 2 = some (CircSq.fin 3) from by decide,
      hmask]
    decide
  refine ⟨?_, by norm_num [shC1], by decide, by decide, by norm_num⟩
  simp only [Alpha_Shaper.genSetOf, hopt]

/-- Witness: the amended coverage theorem instantiated at the one-triangle
shaper `shW1`. -/
theorem C1_witness :
    shW1.optimize = .ok (resW1, shW1.set_mask [false]) ∧
    ((∀ v ∈ shW1.all_vertices, ∃ t ∈ resW1.genSet, v ∈ verts t) ∧
      (¬ shW1.coversUpTo (shW1.sorted_simplices.length / 3) →
        ∀ m ≤ resW1.nMin, ¬ shW1.coversUpTo m)) := by
  have hOME : optMaskEntry (CircSq.fin 1) (CircSq.fin 1) = false :=
    optMaskEntry_self_false one_pos (by norm_num)
  have hmask : shW1.circumradii_sq.map (optMaskEntry (CircSq.fin 1)) =
      [false] := by
    simp [shW1, hOME]
  have hopt : shW1.optimize = .ok (resW1, shW1.set_mask [false]) := by
    simp only [Alpha_Shaper.optimize,
      show shW1.get_minimum_fully_covering_index_of_simplices = some 0 from by
        decide,
      show shW1.sorted_circumradii.get? 0 = some (CircSq.fin 1) from by decide,
      hmask]
    decide
  exact ⟨hopt, C1_optimize_covering hopt⟩

/-- C5 (amended): on success, `optimize` returns the shape generated by the
first `n_min + 1` ranked triangles and, as a side effect, sets the mask to
`get_mask(alpha_opt)` with `alpha_opt = 1/sqrt(r_n) - 1e-10` (the mask entry
for squared circumradius `r` is the exact evaluation of
`r > 1/alpha_opt**2`, `optMaskEntry`).  When the boundary squared
circumradius `r_n` is finite, positive and below `1e20`, `alpha_opt` is
positive and the subtracted epsilon indeed guarantees that the boundary
triangle at rank `n_min` is included, not excluded (`r_n <= 1/alpha_opt**2`);
but when `r_n` is the infinite sentinel, `alpha_opt = -1e-10` and the
boundary triangle is excluded by the very mask `optimize` sets. -/
theorem C5_optimize_result {sh : Alpha_Shaper} {res : OptResult}
    {sh2 : Alpha_Shaper} (h : sh.optimize = .ok (res, sh2)) :
    res.genSet = sh.sorted_simplices.take (res.nMin + 1) ∧
    sh.sorted_circumradii.get? res.nMin = some res.boundary ∧
    sh2.mask = sh.circumradii_sq.map (optMaskEntry res.boundary) ∧
    (∀ q : ℚ, res.boundary = CircSq.fin q → 0 < q → q < 10 ^ 20 →
      optMaskEntry res.boundary res.boundary = false ∧
      ∀ a : ℝ, a = 1 / Real.sqrt q - 1 / 10 ^ 10 →
        0 < a ∧ (q : ℝ) ≤ 1 / a ^ 2) ∧
    (res.boundary = CircSq.inf → optMaskEntry res.boundary res.boundary = true) := by
  rcases optimize_ok_elim h with ⟨-, hb, hgen, hsh2⟩
  subst hsh2
  refine ⟨hgen, hb, rfl, ?_, ?_⟩
  · intro q hq hqpos hqlt
    rw [hq]
    exact ⟨optMaskEntry_self_false hqpos hqlt,
      fun a ha => alpha_opt_included hqpos hqlt ha⟩
  · intro hb2
    rw [hb2]
    rfl

/-- C5, the claim as stated is false on `shC5`: the boundary triangle at the
minimal covering rank has infinite squared circumradius, `optimize` succeeds
with `alpha_opt = 1/sqrt(inf) - 1e-10 = -1e-10`, and the mask it sets marks
that boundary triangle (original index 1) as excluded — the subtracted
epsilon does not guarantee its inclusion. -/
theorem C5_counterexample :
    shC5.boundaryOf = some CircSq.inf ∧ shC5.postMaskAt 1 = some true := by
  have hmask : shC5.circumradii_sq.map (optMaskEntry CircSq.inf) =
      [false, true] := by
    norm_num [shC5, optMaskEntry]
  have hopt : shC5.optimize =
      .ok ({ nMin := 1, boundary := CircSq.inf
             genSet := [(0, 1, 2), (1, 2, 3)] },
           shC5.set_mask [false, true]) := by
    simp only [Alpha_Shaper.optimize,
      show shC5.get_minimum_fully_covering_index_of_simplices = some 1 from by
        decide,
      show shC5.sorted_circumradii.get? 1 = some CircSq.inf from by decide,
      hmask]
    decide
  constructor
  · simp only [Alpha_Shaper.boundaryOf, hopt]
  · simp only [Alpha_Shaper.postMaskAt, hopt]
    decide

/-- Witness: the amended optimize-result theorem instantiated at the
one-triangle shaper with finite boundary squared circumradius 4, whose
boundary mask entry evaluates to included. -/
theorem C5_witness :
    shW5.optimize = .ok (resW5, shW5.set_mask [false]) ∧
    optMaskEntry (CircSq.fin 4) (CircSq.fin 4) = false := by
  have hOME : optMaskEntry (CircSq.fin 4) (CircSq.fin 4) = false :=
    optMaskEntry_self_false (by norm_num) (by norm_num)
  have hmask : shW5.circumradii_sq.map (optMaskEntry (CircSq.fin 4)) =
      [false] := by
    simp [shW5, hOME]
  have hopt : shW5.optimize = .ok (resW5, shW5.set_mask [false]) := by
    simp only [Alpha_Shaper.optimize,
      show shW5.get_minimum_fully_covering_index_of_simplices = some 0 from by
        decide,
      show shW5.sorted_circumradii.get? 0 = some (CircSq.fin 4) from by decide,
      hmask]
    decide
  exact ⟨hopt, ((C5_optimize_result hopt).2.2.2.1 4 rfl (by norm_num)
    (by norm_num)).1⟩

/-- Correctness of the exact decision procedure `gtSqrt`: for `q ≥ 0` it
decides the real comparison `B * sqrt q < A`. -/
theorem gtSqrt_iff {A B q : ℚ} (hq : 0 ≤ q) :
    gtSqrt A B q = true ↔ (B : ℝ) * Real.sqrt q < (A : ℝ) := by
  have hq' : (0:ℝ) ≤ (q:ℝ) := by exact_mod_cast hq
  have hsq : Real.sqrt q * Real.sqrt q = (q:ℝ) := Real.mul_self_sqrt hq'
  have hs0 : (0:ℝ) ≤ Real.sqrt q := Real.sqrt_nonneg _
  rw [gtSqrt]
  by_cases hB : 0 ≤ B
  · have hB' : (0:ℝ) ≤ (B:ℝ) := by exact_mod_cast hB
    have hBq : (0:ℝ) ≤ (B:ℝ) * Real.sqrt q := mul_nonneg hB' hs0
    rw [if_pos hB]
    simp only [Bool.and_eq_true, decide_eq_true_eq]
    constructor
    · rintro ⟨hA, hlt⟩
      have hA' : (0:ℝ) < (A:ℝ) := by exact_mod_cast hA
      have hlt' : ((B:ℝ)) ^ 2 * q < ((A:ℝ)) ^ 2 := by exact_mod_cast hlt
      nlinarith [hsq, hA', hBq, hlt']
    · intro hlt
      have hA' : (0:ℝ) < (A:ℝ) := lt_of_le_of_lt hBq hlt
      refine ⟨by exact_mod_cast hA', ?_⟩
      have h2 : ((B:ℝ)) ^ 2 * q < ((A:ℝ)) ^ 2 := by nlinarith [hsq, hBq]
      exact_mod_cast h2
  · rw [if_neg hB]
    push_neg at hB
    have hB' : (B:ℝ) < 0 := by exact_mod_cast hB
    have hBq : (B:ℝ) * Real.sqrt q ≤ 0 :=
      mul_nonpos_of_nonpos_of_nonneg hB'.le hs0
    by_cases hA : 0 < A
    · rw [if_pos hA]
      have hA' : (0:ℝ) < (A:ℝ) := by exact_mod_cast hA
      simp only [true_iff]
      linarith
    · rw [if_neg hA]
      push_neg at hA
      by_cases hA0 : A = 0
      · subst hA0
        rw [if_pos rfl]
        simp only [decide_eq_true_eq, Rat.cast_zero]
        constructor
        · intro hq0
          have hq0' : (0:ℝ) < (q:ℝ) := by exact_mod_cast hq0
          have hsp : 0 < Real.sqrt q := Real.sqrt_pos.mpr hq0'
          nlinarith
        · intro h
          by_contra hq0
          push_neg at hq0
          have hqz : q = 0 := le_antisymm hq0 hq
          subst hqz
          rw [Rat.cast_zero, Real.sqrt_zero, mul_zero] at h
          exact lt_irrefl 0 h
      · rw [if_neg hA0]
        have hAlt : A < 0 := lt_of_le_of_ne hA hA0
        have hA' : (A:ℝ) < 0 := by exact_mod_cast hAlt
        simp only [decide_eq_true_eq]
        constructor
        · intro hlt
          have hlt' : ((A:ℝ)) ^ 2 < ((B:ℝ)) ^ 2 * q := by exact_mod_cast hlt
          nlinarith [hsq, hs0, mul_nonneg (neg_nonneg.mpr hB'.le) hs0]
        · intro h
          have h2 : ((A:ℝ)) ^ 2 < ((B:ℝ)) ^ 2 * q := by
            nlinarith [hsq, hs0, mul_nonneg (neg_nonneg.mpr hB'.le) hs0]
          exact_mod_cast h2

/-- Faithfulness of the mask entry `optimize` sets, for a finite boundary
radius: for `0 < q` with `q ≠ 1e20` (so `alpha_opt = 1/sqrt(q) - 1e-10` is
nonzero), `optMaskEntry` decides exactly the float comparison
`p > 1/alpha_opt**2` that `get_mask(alpha_opt)` evaluates. -/
theorem optMaskEntry_fin_correct {q p : ℚ} (hq : 0 < q) (hne : q ≠ 10 ^ 20)
    {a : ℝ} (ha : a = 1 / Real.sqrt q - 1 / 10 ^ 10) :
    (optMaskEntry (CircSq.fin q) (CircSq.fin p) = true ↔ 1 / a ^ 2 < (p:ℝ)) := by
  have hq' : (0:ℝ) < (q:ℝ) := by exact_mod_cast hq
  have ht : 0 < Real.sqrt q := Real.sqrt_pos.mpr hq'
  have hsq : Real.sqrt q * Real.sqrt q = (q:ℝ) := Real.mul_self_sqrt hq'.le
  have hane : a ≠ 0 := by
    intro h0
    apply hne
    rw [h0] at ha
    have h1 : 1 / Real.sqrt q = 1 / 10 ^ 10 := by linarith
    have h2 : Real.sqrt q = 10 ^ 10 := by
      field_simp at h1
      linarith
    have h3 : (q:ℝ) = 10 ^ 20 := by
      rw [← hsq, h2]
      norm_num
    exact_mod_cast h3
  have ha2 : (0:ℝ) < a ^ 2 := pow_two_pos_of_ne_zero hane
  have ht2 : (0:ℝ) < Real.sqrt q ^ 2 := by positivity
  have hat : a * Real.sqrt q = 1 - (1 / 10 ^ 10) * Real.sqrt q := by
    rw [ha]
    field_simp
    ring
  have hkey : (p:ℝ) * (1 + (1 / 10 ^ 10) ^ 2 * (q:ℝ)) - (q:ℝ) -
      2 * p * (1 / 10 ^ 10) * Real.sqrt q =
      Real.sqrt q ^ 2 * (p * a ^ 2 - 1) := by
    linear_combination (1 - (p:ℝ) * (1 / 10 ^ 10) ^ 2) * hsq -
      (p:ℝ) * (a * Real.sqrt q + 1 - (1 / 10 ^ 10) * Real.sqrt q) * hat
  rw [optMaskEntry, if_neg hne, gtSqrt_iff hq.le]
  have hcast : ((2 * p * epsOpt : ℚ) : ℝ) * Real.sqrt q =
      2 * p * (1 / 10 ^ 10) * Real.sqrt q := by
    push_cast [epsOpt]
    ring
  have hcast2 : ((p * (1 + epsOpt ^ 2 * q) - q : ℚ) : ℝ) =
      (p:ℝ) * (1 + (1 / 10 ^ 10) ^ 2 * (q:ℝ)) - (q:ℝ) := by
    push_cast [epsOpt]
    ring
  rw [hcast, hcast2, div_lt_iff₀ ha2]
  constructor
  · intro h
    by_contra hcon
    push_neg at hcon
    have h1 : Real.sqrt q ^ 2 * ((p:ℝ) * a ^ 2 - 1) ≤ 0 :=
      mul_nonpos_of_nonneg_of_nonpos ht2.le (by linarith)
    linarith [hkey]
  · intro h
    have h1 : 0 < Real.sqrt q ^ 2 * ((p:ℝ) * a ^ 2 - 1) :=
      mul_pos ht2 (by linarith)
    linarith [hkey]

/-- C4, the claim as stated is false on `shC4`: input point index 4 is absent
from every triangle of the triangulation (as for an exact duplicate dropped by
the triangulator), yet `optimize` does not raise `OptimizationFailure`: it
succeeds and returns the shape generated by both triangles. -/
theorem C4_counterexample :
    4 < shC4.nPoints ∧ 4 ∉ shC4.all_vertices ∧
    shC4.optimize ≠ .error OptError.optimizationFailure ∧
    shC4.genSetOf = some [(0, 1, 2), (0, 2, 3)] := by
  have hm1 : optMaskEntry (CircSq.fin 2) (CircSq.fin 1) = false := by
    norm_num [optMaskEntry, gtSqrt, epsOpt]
  have hm2 : optMaskEntry (CircSq.fin 2) (CircSq.fin 2) = false :=
    optMaskEntry_self_false (by norm_num) (by norm_num)
  have hmask : shC4.circumradii_sq.map (optMaskEntry (CircSq.fin 2)) =
      [false, false] := by
    simp [shC4, hm1, hm2]
  have hopt : shC4.optimize =
      .ok ({ nMin := 1, boundary := CircSq.fin 2
             genSet := [(0, 1, 2), (0, 2, 3)] },
           shC4.set_mask [false, false]) := by
    simp only [Alpha_Shaper.optimize,
      show shC4.get_minimum_fully_covering_index_of_simplices = some 1 from by
        decide,
      show shC4.sorted_circumradii.get? 1 = some (CircSq.fin 2) from by decide,
      hmask]
    decide
  refine ⟨by norm_num [shC4], by decide, ?_, ?_⟩
  · rw [hopt]
    exact fun hc => Except.noConfusion hc
  · simp only [Alpha_Shaper.genSetOf, hopt]
